import Mathlib

set_option maxRecDepth 100000

/-
Shallow embedding of the Futoshiki solver repository (src/Cell.py and
src/Solver.py).  The board container class `Snapshot` is imported by
Solver.py but its file is not among the sources; every operation of that
class used by Solver.py (`unsolvedCells`, `cellsByRow`, `cellsByCol`,
`setCellVal`, `getConstraints`, `clone`, the `cells`/`rows`/`constraints`
attributes and the constructor) is modelled from the specification
(spec §3, §4.1).  Everything else is translated directly from the Python
sources.  Machine integers are modelled as `Nat` (all quantities in the
program are non-negative), Python lists as `List`, Python's `set`-based
operations as `dedup`/`filter` over lists (same membership semantics).
Mutation is modelled by explicit state passing: each Python statement that
mutates a cell or a snapshot becomes a function producing the new board.
In the pure embedding `Snapshot.clone` is the identity on the board value:
passing the value of a board to a function already isolates it from the
caller's copy, which is exactly the isolation cloning provides in Python.
-/

/-- Cell (src/Cell.py, class `cell`): grid position, value (0 = unknown)
and candidate list.  `__init__` hardcodes `possibles = [1,2,3,4,5]`
independently of the puzzle dimension; boards built by the constructor get
that list, but the type allows any list, as Python's attribute does. -/
structure Cell where
  row : Nat
  col : Nat
  val : Nat
  possibles : List Nat
deriving DecidableEq, Repr

/-- Modelled from the spec: a snapshot/board is the dimension `N`
(`snapshot.rows`), an `N×N` grid of cells (`snapshot.cells`, row-major
nested lists) and the constraint list.  A constraint `(r1,c1,r2,c2)` means
the cell at `(r1,c1)` is strictly less than the cell at `(r2,c2)`; both
readings used by Solver.py (`c[0][0],c[0][1],c[1][0],c[1][1]` and
`c[0],c[1],c[2],c[3]`) are given this intended quadruple semantics here;
the representation-level incompatibility of the two readings is modelled
separately by `readNested`/`readFlat` below. -/
structure Board where
  rows : Nat
  cells : List (List Cell)
  constraints : List (Nat × Nat × Nat × Nat)
deriving DecidableEq, Repr

/-- Placeholder result of an out-of-range grid access (Python would raise
`IndexError`; theorems about grid contents carry well-formedness
hypotheses making this unreachable). -/
def defaultCell (r c : Nat) : Cell :=
  ⟨r, c, 0, []⟩

/-- Modelled from the spec: `snapshot.cells[r][c]`. -/
def cellAt (b : Board) (r c : Nat) : Cell :=
  ((b.cells[r]?).getD [])[c]?.getD (defaultCell r c)

/-- Modelled from the spec: in-place mutation of the cell object stored at
grid position `(r, c)` (out-of-range access is a no-op here). -/
def setCell (b : Board) (r c : Nat) (f : Cell → Cell) : Board :=
  { b with cells := b.cells.set r (((b.cells[r]?).getD []).set c (f (cellAt b r c))) }

/-- Python `cell.setPossibilities(l)` on the cell at `(r, c)` (src/Cell.py line 33). -/
def setPossibles (b : Board) (r c : Nat) (l : List Nat) : Board :=
  setCell b r c (fun cl => { cl with possibles := l })

/-- Modelled from the spec: `snapshot.setCellVal(r, c, v)` assigns the
value of the cell at `(r, c)`. -/
def setCellVal (b : Board) (r c : Nat) (v : Nat) : Board :=
  setCell b r c (fun cl => { cl with val := v })

/-- Modelled from the spec: `snapshot.cellsByRow(r)`, the ordered list of
the cells of row `r`. -/
def cellsByRow (b : Board) (r : Nat) : List Cell :=
  (b.cells[r]?).getD []

/-- Modelled from the spec: `snapshot.cellsByCol(c)`, the ordered list of
the cells of column `c`. -/
def cellsByCol (b : Board) (c : Nat) : List Cell :=
  (List.range b.rows).map (fun j => cellAt b j c)

/-- The list `row_vals` built by Solver.py lines 64-68 and 159-163:
`[row[j].getVal() for j in range(snapshot.rows)]` for row `i`. -/
def rowVals (b : Board) (i : Nat) : List Nat :=
  (List.range b.rows).map (fun j => (cellAt b i j).val)

/-- The list `col_vals` built by Solver.py lines 64-68 and 159-163. -/
def colVals (b : Board) (i : Nat) : List Nat :=
  (List.range b.rows).map (fun j => (cellAt b j i).val)

/-- Modelled from the spec: `snapshot.unsolvedCells()`, the row-major list
of cells whose value is 0. -/
def unsolvedCells (b : Board) : List Cell :=
  b.cells.flatten.filter (fun cl => cl.val == 0)

/-- Function `isComplete` (src/Solver.py lines 181-195): false iff some cell of the
grid has value 0. -/
def isComplete (b : Board) : Bool :=
  b.cells.all (fun row => row.all (fun cl => !(cl.val == 0)))

/-- Python's `list(set(p).difference(set(s)))`: membership-wise the
difference of `p` and `s`; `set(p)` deduplicates, modelled by `dedup`
(CPython's iteration order over small-int sets is an implementation
detail; the solver only ever uses these lists through membership, length
and iteration, and every domain the program builds is duplicate-free). -/
def pyDiff (p s : List Nat) : List Nat :=
  p.dedup.filter (fun x => !(s.contains x))

/-- Solver.py lines 61-73: row and column exclusion for the unsolved cell
at `(r, c)`: its candidate list loses every nonzero value present in its
row, then every nonzero value present in its column. -/
def rowColElim (b : Board) (r c : Nat) : Board :=
  let rvals := (rowVals b r).filter (fun x => !(x == 0))
  let cvals := (colVals b c).filter (fun x => !(x == 0))
  let b1 := setPossibles b r c (pyDiff (cellAt b r c).possibles rvals)
  setPossibles b1 r c (pyDiff (cellAt b1 r c).possibles cvals)

/-- First half of one iteration of the `for c in constraints` loop of
`update_possibilities` (src/Solver.py lines 79-94) for the cell at
`(r, c)`: when the cell is the lesser endpoint of the constraint, its
candidates are replaced by `range(1, bigger.val)` if the bigger cell is
assigned, else the maximum `snapshot.rows` is removed if present;
`cell.setPossibilities` runs inside the block even when nothing changed
(a no-op then). -/
def lesserBlock (r c : Nat) (b : Board) (q : Nat × Nat × Nat × Nat) : Board :=
  if q.1 == r && q.2.1 == c then
    let poss := (cellAt b r c).possibles
    let bigger := cellAt b q.2.2.1 q.2.2.2
    let poss1 :=
      if bigger.val != 0 then List.range' 1 (bigger.val - 1)
      else if poss.contains b.rows then poss.erase b.rows
      else poss
    setPossibles b r c poss1
  else b

/-- Second half of the same loop iteration (src/Solver.py lines 96-109):
the block guarded by `c[1] == (cell.row, cell.col)`, which runs on the
state the first block left behind (within one iteration, the local
variable `new_possibilities` the second block reads is always equal to
the cell's stored candidate list at that point, because every branch of
the first block ends in `cell.setPossibilities`). -/
def greaterBlock (r c : Nat) (b : Board) (q : Nat × Nat × Nat × Nat) : Board :=
  if q.2.2.1 == r && q.2.2.2 == c then
    let poss := (cellAt b r c).possibles
    let smaller := cellAt b q.1 q.2.1
    let poss1 :=
      if smaller.val != 0 then List.range' (smaller.val + 1) (b.rows - smaller.val)
      else if poss.contains 1 then poss.erase 1
      else poss
    setPossibles b r c poss1
  else b

/-- One full iteration of the constraint loop: the lesser-endpoint block
followed by the greater-endpoint block. -/
def constrStep (r c : Nat) (b : Board) (q : Nat × Nat × Nat × Nat) : Board :=
  greaterBlock r c (lesserBlock r c b q) q

/-- Solver.py lines 111-127: row hidden-single cross-reference for the
cell at `(r, c)`.  When the cell still has more than one candidate, the
candidates of every other cell of the row are subtracted in sequence
(the Python `break` on an empty intermediate result does not change the
outcome, since differences of an empty set stay empty); if exactly one
value survives, the domain collapses to it. -/
def hiddenRowStep (b : Board) (r c : Nat) : Board :=
  let poss := (cellAt b r c).possibles
  if poss.length > 1 then
    let diff := (cellsByRow b r).foldl
      (fun acc rc => if rc.row == r && rc.col == c then acc else pyDiff acc rc.possibles) poss
    if diff.length == 1 then setPossibles b r c diff else b
  else b

/-- Solver.py lines 129-145: column hidden-single cross-reference,
identical to `hiddenRowStep` scoped to the column. -/
def hiddenColStep (b : Board) (r c : Nat) : Board :=
  let poss := (cellAt b r c).possibles
  if poss.length > 1 then
    let diff := (cellsByCol b c).foldl
      (fun acc rc => if rc.row == r && rc.col == c then acc else pyDiff acc rc.possibles) poss
    if diff.length == 1 then setPossibles b r c diff else b
  else b

/-- The body of the `for cell in snapshot.unsolvedCells()` loop of
`update_possibilities` (src/Solver.py lines 58-145) for the unsolved cell
at `(r, c)`: row/column elimination, then the constraint sweep, then the
row and column hidden-single steps. -/
def updateOne (b : Board) (r c : Nat) : Board :=
  let b1 := rowColElim b r c
  let b2 := b1.constraints.foldl (constrStep r c) b1
  hiddenColStep (hiddenRowStep b2 r c) r c

/-- Function `update_possibilities` (src/Solver.py lines 45-145): the list of
unsolved cells is captured once at entry (their grid positions), then the
per-cell update runs over them in row-major order, each seeing the
mutations made for earlier cells. -/
def update_possibilities (b : Board) : Board :=
  ((unsolvedCells b).map (fun cl => (cl.row, cl.col))).foldl
    (fun acc p => updateOne acc p.1 p.2) b

/-- Python's `len(set(l)) == len(l)` (Solver.py lines 165-166). -/
def setLenEq (l : List Nat) : Bool :=
  l.dedup.length == l.length

/-- Function `checkConsistency` (src/Solver.py lines 148-177): every row and column
has pairwise distinct nonzero values, and every constraint with both
endpoints assigned satisfies the strict inequality (the code returns
`False` when `cell_1 >= cell_2`). -/
def checkConsistency (b : Board) : Bool :=
  ((List.range b.rows).all (fun i =>
    setLenEq ((rowVals b i).filter (fun x => !(x == 0))) &&
    setLenEq ((colVals b i).filter (fun x => !(x == 0))))) &&
  (b.constraints.all (fun q =>
    let v1 := (cellAt b q.1 q.2.1).val
    let v2 := (cellAt b q.2.2.1 q.2.2.2).val
    !(decide (0 < v1) && decide (0 < v2) && decide (v2 ≤ v1))))

/-- The `for possibility in next_cell.possibles` loop of `solve`
(src/Solver.py lines 29-40), parameterised by the recursive call
`solveRec` (the caller passes `solve` at one unit less fuel).  The result
is `none` when the fuel of a nested call ran out, `some (some sol)` when a
recursive call (or the consistency-gated base case below it) succeeded
with final board `sol` — the Python code returns the bare `True` there —
and `some none` when the loop exhausted all candidates (Python's final
`return False`). -/
def tryCandsB (solveRec : Board → Option (Option Board)) (b : Board) (r c : Nat) :
    List Nat → Option (Option Board)
  | [] => some none
  | v :: vs =>
    let b1 := setCellVal b r c v
    if checkConsistency b1 then
      match solveRec b1 with
      | none => none
      | some (some sol) => some (some sol)
      | some none => tryCandsB solveRec b r c vs
    else tryCandsB solveRec b r c vs

/-- Function `solve` (src/Solver.py lines 9-43), fuel-instrumented (Python places no
bound on the recursion; `none` means the fuel ran out before the call
tree finished) and success-instrumented: where Python returns `True` from
the base case `isComplete and checkConsistency`, this returns the board
of that base case, so that the solution the search reached is visible to
theorems; `some none` is Python's `return False`.  The display calls
(pygame / Futoshiki_IO) are the no-op observer of spec §6 and are not
modelled.  `next_cell` is read from the pre-clone board `b` while the
trial assignments run on the propagated clone `update_possibilities b`,
exactly as in the Python (clone isolation is implicit in the pure
embedding). -/
def solveB : Nat → Board → Option (Option Board)
  | 0, _ => none
  | fuel + 1, b =>
    if isComplete b && checkConsistency b then some (some b)
    else if !(isComplete b) then
      match unsolvedCells b with
      | [] => some none
      | next :: _ =>
        tryCandsB (solveB fuel) (update_possibilities b) next.row next.col next.possibles
    else some none

/-- The Boolean view of `solveB`: Python's actual return value (`True` /
`False`), with `none` again meaning the fuel bound was hit. -/
def solve (fuel : Nat) (b : Board) : Option Bool :=
  (solveB fuel b).map (fun r => r.isSome)

/-- Modelled from the spec: construction of the initial board from the
dimension, the clue grid and the constraint list (spec §3, §6); each cell
object is created by `cell.__init__` (src/Cell.py lines 5-9), which sets
`possibles = [1,2,3,4,5]` regardless of the dimension. -/
def initBoard (n : Nat) (clues : List (List Nat)) (cs : List (Nat × Nat × Nat × Nat)) : Board :=
  ⟨n,
   (List.range n).map (fun r =>
     (List.range n).map (fun c => ⟨r, c, (clues.getD r []).getD c 0, [1, 2, 3, 4, 5]⟩)),
   cs⟩

/-- Well-formedness of a board: the grid is `rows × rows` and each cell
object's position fields agree with its grid slot (in Python this is
maintained by construction; cell objects are reached both through the
grid and through their own `row`/`col` attributes, which Solver.py uses
interchangeably). -/
def wf (b : Board) : Bool :=
  (b.cells.length == b.rows) &&
  ((List.range b.rows).all (fun r =>
    (((b.cells[r]?).getD []).length == b.rows) &&
    ((List.range b.rows).all (fun c =>
      (cellAt b r c).row == r && (cellAt b r c).col == c))))

/-- No candidate list of the board contains 0 (true of every board the
program constructs: `cell.__init__` starts from `[1,2,3,4,5]` and no
update ever inserts 0). -/
def zfree (b : Board) : Bool :=
  b.cells.all (fun row => row.all (fun cl => !(cl.possibles.contains 0)))

/-- The number of unsolved grid positions, counted positionally. -/
def unsolvedCount (b : Board) : Nat :=
  ((List.range b.rows).map (fun r =>
    ((List.range b.rows).filter (fun c => (cellAt b r c).val == 0)).length)).sum

/-- Argument of a Python call in the cell module: either an integer or a
list of integers (the only kinds of values `cell.clone` passes). -/
inductive PyArg where
  | int : Nat → PyArg
  | list : List Nat → PyArg
deriving DecidableEq, Repr

/-- Calling the constructor `cell(...)` (src/Cell.py lines 5-9) with a
positional argument list: `__init__(self, row, col, val)` accepts exactly
three arguments besides `self` and sets `possibles = [1,2,3,4,5]`; any
other argument list raises `TypeError`, modelled by `none`. -/
def cellInitCall (args : List PyArg) : Option Cell :=
  match args with
  | [PyArg.int r, PyArg.int c, PyArg.int v] => some ⟨r, c, v, [1, 2, 3, 4, 5]⟩
  | _ => none

/-- Method `cell.clone` (src/Cell.py lines 35-36): it evaluates
`cell(self.row, self.col, self.val, self.possibles)` — a call with four
positional arguments. -/
def cellCloneCall (cl : Cell) : Option Cell :=
  cellInitCall [PyArg.int cl.row, PyArg.int cl.col, PyArg.int cl.val, PyArg.list cl.possibles]

/-- Python value as far as the two constraint readers are concerned: an
integer or a sequence (list/tuple) of such values. -/
inductive PyV where
  | int : Nat → PyV
  | seq : List PyV → PyV
deriving Repr

/-- Reading of a constraint done by `update_possibilities`
(src/Solver.py lines 82, 83, 97, 98): the accesses `c[0][0]`, `c[0][1]`,
`c[1][0]`, `c[1][1]` must all succeed and produce integers (ints are not
subscriptable and a sequence is not an integer, so anything else raises
`TypeError` or cannot be the row/column number the code compares and
indexes with), i.e. `c` must be a sequence of at least two sequences whose
first two entries are integers. -/
def readNested : PyV → Option (Nat × Nat × Nat × Nat)
  | PyV.seq (PyV.seq (PyV.int a :: PyV.int b :: _) :: PyV.seq (PyV.int d :: PyV.int e :: _) :: _) =>
      some (a, b, d, e)
  | _ => none

/-- Reading of a constraint done by `checkConsistency` (src/Solver.py
lines 169-171): the accesses `c[0]`, `c[1]`, `c[2]`, `c[3]` must succeed
and produce integers usable as the grid indices `snapshot.cells[c[0]]`
etc., i.e. `c` must be a sequence whose first four entries are
integers. -/
def readFlat : PyV → Option (Nat × Nat × Nat × Nat)
  | PyV.seq (PyV.int a :: PyV.int b :: PyV.int d :: PyV.int e :: _) => some (a, b, d, e)
  | _ => none

/-- Specification-side consistency predicate, following the words of the
spec (§4.3): (a) in every row and every column the nonzero values present
are pairwise distinct; (b) for every constraint whose two endpoints both
hold nonzero values, the lesser cell's value is strictly below the
greater cell's value. -/
def specConsistent (b : Board) : Prop :=
  (∀ i < b.rows,
    List.Pairwise (fun a b => a = 0 ∨ b = 0 ∨ a ≠ b) (rowVals b i) ∧
    List.Pairwise (fun a b => a = 0 ∨ b = 0 ∨ a ≠ b) (colVals b i)) ∧
  (∀ q ∈ b.constraints,
    0 < (cellAt b q.1 q.2.1).val → 0 < (cellAt b q.2.2.1 q.2.2.2).val →
    (cellAt b q.1 q.2.1).val < (cellAt b q.2.2.1 q.2.2.2).val)

/-- Specification-side row hidden-single difference (spec §4.2 step 3):
the values of the cell's domain that appear in no other cell's domain in
the same row (the set difference with the union of the other domains). -/
def rowOthersExcl (b : Board) (r c : Nat) : List Nat :=
  (cellAt b r c).possibles.filter (fun x =>
    (cellsByRow b r).all (fun rc => (rc.row == r && rc.col == c) || !(rc.possibles.contains x)))

/-- A 1-cell board with the single cell unsolved and domain `[1]`, used to
exercise the solver on a concrete input. -/
def oneCellBoard : Board :=
  ⟨1, [[⟨0, 0, 0, [1]⟩]], []⟩

/-- The 3×3 board of spec §8 (failure correctness): two identical clues 2
at `(0,0)` and `(0,2)` of the same row, freshly constructed. -/
def dupRowBoard : Board :=
  initBoard 3 [[2, 0, 2], [0, 0, 0], [0, 0, 0]] []

/-- A freshly constructed 3×3 board with clues 1 and 2 in row 0 and the
single constraint `(0,0) < (1,0)`. -/
def constraintBoard : Board :=
  initBoard 3 [[0, 1, 2], [0, 0, 0], [0, 0, 0]] [(0, 0, 1, 0)]

/-- A 2×2 constraint-free board where cell `(0,0)` has domain `[1,2]` and
cell `(0,1)` has domain `[2]`, so 1 fits only in `(0,0)` in row 0. -/
def hiddenPairBoard : Board :=
  ⟨2, [[⟨0, 0, 0, [1, 2]⟩, ⟨0, 1, 0, [2]⟩], [⟨1, 0, 0, [1, 2]⟩, ⟨1, 1, 0, [1, 2]⟩]], []⟩

/-- Everything of a board except the cells' candidate lists: relates a
board to the result of any sequence of `setPossibilities` mutations. -/
structure SameVals (b b' : Board) : Prop where
  rws : b'.rows = b.rows
  len : b'.cells.length = b.cells.length
  rowlen : ∀ r : Nat, ((b'.cells[r]?).getD []).length = ((b.cells[r]?).getD []).length
  vals : ∀ r c : Nat, (cellAt b' r c).val = (cellAt b r c).val
  rowf : ∀ r c : Nat, (cellAt b' r c).row = (cellAt b r c).row
  colf : ∀ r c : Nat, (cellAt b' r c).col = (cellAt b r c).col
  constr : b'.constraints = b.constraints

/-- Positional form of the everywhere-positive-domain property. -/
def posDoms (b : Board) : Prop :=
  ∀ r c x : Nat, x ∈ (cellAt b r c).possibles → 1 ≤ x

/-- The part of `SameVals` that ignores values: shared by
`setPossibilities` and `setCellVal` mutations. -/
structure SameShape (b b' : Board) : Prop where
  rws : b'.rows = b.rows
  len : b'.cells.length = b.cells.length
  rowlen : ∀ r : Nat, ((b'.cells[r]?).getD []).length = ((b.cells[r]?).getD []).length
  rowf : ∀ r c : Nat, (cellAt b' r c).row = (cellAt b r c).row
  colf : ∀ r c : Nat, (cellAt b' r c).col = (cellAt b r c).col

/-- Pointwise domain inclusion: every candidate of `b2` at any position is
a candidate of `b1` there. -/
def domSub (b1 b2 : Board) : Prop :=
  ∀ r c x : Nat, x ∈ (cellAt b2 r c).possibles → x ∈ (cellAt b1 r c).possibles

/-- Every assigned value of the board is at most `M`. -/
def valsLe (M : Nat) (b : Board) : Prop :=
  ∀ r c : Nat, (cellAt b r c).val ≤ M

/-- Every candidate value of every cell of the board is at most `M`. -/
def ubDoms (M : Nat) (b : Board) : Prop :=
  ∀ r c x : Nat, x ∈ (cellAt b r c).possibles → x ≤ M

theorem setCell_rows (b : Board) (r c : Nat) (f : Cell → Cell) :
    (setCell b r c f).rows = b.rows := rfl

theorem setCell_constraints (b : Board) (r c : Nat) (f : Cell → Cell) :
    (setCell b r c f).constraints = b.constraints := rfl

theorem setCell_cells_length (b : Board) (r c : Nat) (f : Cell → Cell) :
    (setCell b r c f).cells.length = b.cells.length := by
  simp [setCell]

/-- Reading a grid slot after the in-place mutation of a slot: the mutated
slot shows the new cell when its position is in range, every other read
(and any out-of-range mutation) leaves the read unchanged. -/
theorem cellAt_setCell (b : Board) (r c : Nat) (f : Cell → Cell) (r' c' : Nat) :
    cellAt (setCell b r c f) r' c' =
      if r' = r ∧ c' = c ∧ r < b.cells.length ∧ c < ((b.cells[r]?).getD []).length then
        f (cellAt b r c)
      else cellAt b r' c' := by
  by_cases hr : r' = r
  · subst hr
    by_cases hrl : r' < b.cells.length
    · have h1 : (setCell b r' c f).cells[r']? =
          some (((b.cells[r']?).getD []).set c (f (cellAt b r' c))) := by
        simp [setCell, List.getElem?_set, hrl]
      by_cases hc : c' = c
      · subst hc
        by_cases hcl : c' < ((b.cells[r']?).getD []).length
        · rw [if_pos ⟨rfl, rfl, hrl, hcl⟩]
          simp [cellAt, h1, List.getElem?_set, hcl]
        · rw [if_neg (by tauto)]
          simp only [cellAt, h1, Option.getD_some]
          rw [List.getElem?_set]
          simp [hcl, List.getElem?_eq_none (le_of_not_lt hcl)]
      · rw [if_neg (by tauto)]
        simp only [cellAt, h1, Option.getD_some, List.getElem?_set]
        rw [if_neg (fun h => hc h.symm)]
    · rw [if_neg (by tauto)]
      have h2 : (setCell b r' c f).cells = b.cells := by
        simp [setCell, List.set_eq_of_length_le (le_of_not_lt hrl)]
      simp [cellAt, h2]
  · rw [if_neg (by tauto)]
    have h2 : (setCell b r c f).cells[r']? = b.cells[r']? := by
      simp only [setCell]
      rw [List.getElem?_set, if_neg (fun h => hr h.symm)]
    simp [cellAt, h2]

theorem rowLen_setCell (b : Board) (r c : Nat) (f : Cell → Cell) (r' : Nat) :
    (((setCell b r c f).cells[r']?).getD []).length = ((b.cells[r']?).getD []).length := by
  by_cases hr : r' = r
  · subst hr
    by_cases hrl : r' < b.cells.length
    · have h1 : (setCell b r' c f).cells[r']? =
          some (((b.cells[r']?).getD []).set c (f (cellAt b r' c))) := by
        simp [setCell, List.getElem?_set, hrl]
      simp [h1]
    · have h2 : (setCell b r' c f).cells = b.cells := by
        simp [setCell, List.set_eq_of_length_le (le_of_not_lt hrl)]
      rw [h2]
  · have h2 : (setCell b r c f).cells[r']? = b.cells[r']? := by
      simp only [setCell]
      rw [List.getElem?_set, if_neg (fun h => hr h.symm)]
    rw [h2]

theorem cellAt_setPossibles_possibles (b : Board) (r c : Nat) (l : List Nat) (r' c' : Nat) :
    (cellAt (setPossibles b r c l) r' c').possibles =
      if r' = r ∧ c' = c ∧ r < b.cells.length ∧ c < ((b.cells[r]?).getD []).length then l
      else (cellAt b r' c').possibles := by
  unfold setPossibles
  rw [cellAt_setCell]
  split_ifs with h
  · rfl
  · rfl

theorem cellAt_setPossibles_val (b : Board) (r c : Nat) (l : List Nat) (r' c' : Nat) :
    (cellAt (setPossibles b r c l) r' c').val = (cellAt b r' c').val := by
  unfold setPossibles
  rw [cellAt_setCell]
  split_ifs with h
  · obtain ⟨h1, h2, -⟩ := h
    subst h1; subst h2; rfl
  · rfl

theorem cellAt_setPossibles_rowcol (b : Board) (r c : Nat) (l : List Nat) (r' c' : Nat) :
    (cellAt (setPossibles b r c l) r' c').row = (cellAt b r' c').row ∧
    (cellAt (setPossibles b r c l) r' c').col = (cellAt b r' c').col := by
  unfold setPossibles
  rw [cellAt_setCell]
  split_ifs with h
  · obtain ⟨h1, h2, -⟩ := h
    subst h1; subst h2; exact ⟨rfl, rfl⟩
  · exact ⟨rfl, rfl⟩

theorem cellAt_setCellVal_possibles (b : Board) (r c v : Nat) (r' c' : Nat) :
    (cellAt (setCellVal b r c v) r' c').possibles = (cellAt b r' c').possibles := by
  unfold setCellVal
  rw [cellAt_setCell]
  split_ifs with h
  · obtain ⟨h1, h2, -⟩ := h
    subst h1; subst h2; rfl
  · rfl

theorem cellAt_setCellVal_rowcol (b : Board) (r c v : Nat) (r' c' : Nat) :
    (cellAt (setCellVal b r c v) r' c').row = (cellAt b r' c').row ∧
    (cellAt (setCellVal b r c v) r' c').col = (cellAt b r' c').col := by
  unfold setCellVal
  rw [cellAt_setCell]
  split_ifs with h
  · obtain ⟨h1, h2, -⟩ := h
    subst h1; subst h2; exact ⟨rfl, rfl⟩
  · exact ⟨rfl, rfl⟩

theorem cellAt_setCellVal_val (b : Board) (r c v : Nat) (r' c' : Nat) :
    (cellAt (setCellVal b r c v) r' c').val =
      if r' = r ∧ c' = c ∧ r < b.cells.length ∧ c < ((b.cells[r]?).getD []).length then v
      else (cellAt b r' c').val := by
  unfold setCellVal
  rw [cellAt_setCell]
  split_ifs with h
  · rfl
  · rfl

theorem SameVals.refl (b : Board) : SameVals b b :=
  ⟨rfl, rfl, fun _ => rfl, fun _ _ => rfl, fun _ _ => rfl, fun _ _ => rfl, rfl⟩

theorem SameVals.trans {a b c : Board} (h1 : SameVals a b) (h2 : SameVals b c) : SameVals a c :=
  ⟨h2.rws.trans h1.rws, h2.len.trans h1.len,
   fun r => (h2.rowlen r).trans (h1.rowlen r),
   fun r c => (h2.vals r c).trans (h1.vals r c),
   fun r c => (h2.rowf r c).trans (h1.rowf r c),
   fun r c => (h2.colf r c).trans (h1.colf r c),
   h2.constr.trans h1.constr⟩

theorem sameVals_setPossibles (b : Board) (r c : Nat) (l : List Nat) :
    SameVals b (setPossibles b r c l) :=
  ⟨rfl, setCell_cells_length b r c _, rowLen_setCell b r c _,
   fun r' c' => cellAt_setPossibles_val b r c l r' c',
   fun r' c' => (cellAt_setPossibles_rowcol b r c l r' c').1,
   fun r' c' => (cellAt_setPossibles_rowcol b r c l r' c').2,
   rfl⟩

/-- Chaining a board-transforming fold along a reflexive transitive
relation. -/
theorem foldl_rel {α : Type} (R : Board → Board → Prop)
    (hrefl : ∀ b, R b b) (htrans : ∀ a b c, R a b → R b c → R a c)
    (g : Board → α → Board) (hstep : ∀ b x, R b (g b x)) :
    ∀ (l : List α) (b : Board), R b (l.foldl g b) := by
  intro l
  induction l with
  | nil => intro b; exact hrefl b
  | cons x xs ih => intro b; exact htrans _ _ _ (hstep b x) (ih (g b x))

theorem sameVals_rowColElim (b : Board) (r c : Nat) : SameVals b (rowColElim b r c) := by
  unfold rowColElim
  exact SameVals.trans (sameVals_setPossibles b r c _) (sameVals_setPossibles _ r c _)

theorem sameVals_lesserBlock (r c : Nat) (b : Board) (q : Nat × Nat × Nat × Nat) :
    SameVals b (lesserBlock r c b q) := by
  unfold lesserBlock
  dsimp only
  split
  · exact sameVals_setPossibles b r c _
  · exact SameVals.refl b

theorem sameVals_greaterBlock (r c : Nat) (b : Board) (q : Nat × Nat × Nat × Nat) :
    SameVals b (greaterBlock r c b q) := by
  unfold greaterBlock
  dsimp only
  split
  · exact sameVals_setPossibles b r c _
  · exact SameVals.refl b

theorem sameVals_constrStep (r c : Nat) (b : Board) (q : Nat × Nat × Nat × Nat) :
    SameVals b (constrStep r c b q) :=
  SameVals.trans (sameVals_lesserBlock r c b q) (sameVals_greaterBlock r c _ q)

theorem sameVals_hiddenRowStep (b : Board) (r c : Nat) : SameVals b (hiddenRowStep b r c) := by
  unfold hiddenRowStep
  dsimp only
  split_ifs with h1 h2
  · exact sameVals_setPossibles b r c _
  · exact SameVals.refl b
  · exact SameVals.refl b

theorem sameVals_hiddenColStep (b : Board) (r c : Nat) : SameVals b (hiddenColStep b r c) := by
  unfold hiddenColStep
  dsimp only
  split_ifs with h1 h2
  · exact sameVals_setPossibles b r c _
  · exact SameVals.refl b
  · exact SameVals.refl b

theorem sameVals_updateOne (b : Board) (r c : Nat) : SameVals b (updateOne b r c) := by
  have h2 : SameVals (rowColElim b r c)
      ((rowColElim b r c).constraints.foldl (constrStep r c) (rowColElim b r c)) :=
    foldl_rel SameVals SameVals.refl (fun _ _ _ => SameVals.trans)
      (constrStep r c) (fun b' q => sameVals_constrStep r c b' q) _ _
  have h3 := sameVals_hiddenRowStep
    ((rowColElim b r c).constraints.foldl (constrStep r c) (rowColElim b r c)) r c
  have h4 := sameVals_hiddenColStep
    (hiddenRowStep ((rowColElim b r c).constraints.foldl (constrStep r c) (rowColElim b r c)) r c) r c
  exact SameVals.trans (sameVals_rowColElim b r c) (SameVals.trans h2 (SameVals.trans h3 h4))

theorem sameVals_foldl {α : Type} (g : Board → α → Board)
    (hstep : ∀ b x, SameVals b (g b x)) :
    ∀ (l : List α) (b : Board), SameVals b (l.foldl g b) := by
  intro l
  induction l with
  | nil => intro b; exact SameVals.refl b
  | cons x xs ih => intro b; exact SameVals.trans (hstep b x) (ih (g b x))

theorem sameVals_update_possibilities (b : Board) : SameVals b (update_possibilities b) := by
  unfold update_possibilities
  apply sameVals_foldl
  intro b' p
  exact sameVals_updateOne b' p.1 p.2

theorem all_grid_iff (g : List (List Cell)) (P : Cell → Bool) :
    (g.all fun row => row.all P) = true ↔
      ∀ r c : Nat, ∀ cl : Cell, ((g[r]?).getD [])[c]? = some cl → P cl = true := by
  constructor
  · intro h r c cl hcl
    rw [List.all_eq_true] at h
    cases hg : g[r]? with
    | none => rw [hg] at hcl; simp at hcl
    | some row =>
      have h2 := h row (List.getElem?_mem hg)
      rw [List.all_eq_true] at h2
      rw [hg] at hcl
      exact h2 cl (List.getElem?_mem (by simpa using hcl))
  · intro h
    rw [List.all_eq_true]
    intro row hrow
    rw [List.all_eq_true]
    intro cl hcl
    obtain ⟨r, hr⟩ := List.getElem?_of_mem hrow
    obtain ⟨c, hc⟩ := List.getElem?_of_mem hcl
    exact h r c cl (by rw [hr]; simpa using hc)

theorem cellAt_of_getElem? {b : Board} {r c : Nat} {cl : Cell}
    (h : ((b.cells[r]?).getD [])[c]? = some cl) : cellAt b r c = cl := by
  unfold cellAt
  rw [h]
  rfl

theorem zfree_iff_posDoms (b : Board) : zfree b = true ↔ posDoms b := by
  unfold zfree posDoms
  rw [all_grid_iff]
  constructor
  · intro h r c x hx
    cases hcl : ((b.cells[r]?).getD [])[c]? with
    | none =>
      rw [cellAt, hcl] at hx
      simp [defaultCell] at hx
    | some cl =>
      have h2 := h r c cl hcl
      rw [cellAt_of_getElem? hcl] at hx
      simp only [Bool.not_eq_true'] at h2
      rcases Nat.eq_zero_or_pos x with h0 | h1
      · subst h0
        have h3 : cl.possibles.contains 0 = true := List.elem_iff.mpr hx
        rw [h3] at h2
        cases h2
      · exact h1
  · intro h r c cl hcl
    simp only [Bool.not_eq_true']
    cases hcont : cl.possibles.contains 0 with
    | false => rfl
    | true =>
      have hx : (0 : Nat) ∈ cl.possibles := List.elem_iff.mp hcont
      rw [← cellAt_of_getElem? hcl] at hx
      have := h r c 0 hx
      omega

theorem mem_pyDiff {p s : List Nat} {x : Nat} : x ∈ pyDiff p s ↔ x ∈ p ∧ ¬(x ∈ s) := by
  unfold pyDiff
  simp [List.mem_filter, List.mem_dedup, List.elem_iff]

theorem posDoms_setPossibles {b : Board} {r c : Nat} {l : List Nat}
    (hl : ∀ x ∈ l, 1 ≤ x) (hb : posDoms b) : posDoms (setPossibles b r c l) := by
  intro r' c' x hx
  rw [cellAt_setPossibles_possibles] at hx
  split_ifs at hx with h
  · exact hl x hx
  · exact hb r' c' x hx

theorem mem_range'_pos {s n x : Nat} (hs : 1 ≤ s) (hx : x ∈ List.range' s n) : 1 ≤ x := by
  rw [List.mem_range'] at hx
  obtain ⟨i, hi, rfl⟩ := hx
  omega

theorem posDoms_rowColElim (b : Board) (r c : Nat) (hb : posDoms b) :
    posDoms (rowColElim b r c) := by
  unfold rowColElim
  dsimp only
  have h1 : posDoms (setPossibles b r c (pyDiff (cellAt b r c).possibles
      ((rowVals b r).filter (fun x => !(x == 0))))) :=
    posDoms_setPossibles (fun x hx => hb r c x (mem_pyDiff.mp hx).1) hb
  exact posDoms_setPossibles (fun x hx => h1 r c x (mem_pyDiff.mp hx).1) h1

theorem posDoms_lesserBlock (r c : Nat) (b : Board) (q : Nat × Nat × Nat × Nat)
    (hb : posDoms b) : posDoms (lesserBlock r c b q) := by
  unfold lesserBlock
  dsimp only
  split
  · apply posDoms_setPossibles ?_ hb
    split_ifs with hv hc2
    · intro x hx
      exact mem_range'_pos le_rfl hx
    · intro x hx
      exact hb r c x (List.mem_of_mem_erase hx)
    · intro x hx
      exact hb r c x hx
  · exact hb

theorem posDoms_greaterBlock (r c : Nat) (b : Board) (q : Nat × Nat × Nat × Nat)
    (hb : posDoms b) : posDoms (greaterBlock r c b q) := by
  unfold greaterBlock
  dsimp only
  split
  · apply posDoms_setPossibles ?_ hb
    split_ifs with hv hc2
    · intro x hx
      exact mem_range'_pos (by omega) hx
    · intro x hx
      exact hb r c x (List.mem_of_mem_erase hx)
    · intro x hx
      exact hb r c x hx
  · exact hb

theorem foldl_hidden_subset (L : List Cell) (skip : Cell → Bool) :
    ∀ (a : List Nat) (x : Nat),
      x ∈ L.foldl (fun acc rc => if skip rc then acc else pyDiff acc rc.possibles) a → x ∈ a := by
  induction L with
  | nil => intro a x h; exact h
  | cons rc L ih =>
    intro a x h
    simp only [List.foldl_cons] at h
    by_cases hs : skip rc = true
    · rw [if_pos hs] at h
      exact ih a x h
    · rw [if_neg hs] at h
      exact (mem_pyDiff.mp (ih _ x h)).1

theorem posDoms_hiddenRowStep (b : Board) (r c : Nat) (hb : posDoms b) :
    posDoms (hiddenRowStep b r c) := by
  unfold hiddenRowStep
  dsimp only
  split_ifs with h1 h2
  · apply posDoms_setPossibles ?_ hb
    intro x hx
    exact hb r c x (foldl_hidden_subset (cellsByRow b r) _ _ x hx)
  · exact hb
  · exact hb

theorem posDoms_hiddenColStep (b : Board) (r c : Nat) (hb : posDoms b) :
    posDoms (hiddenColStep b r c) := by
  unfold hiddenColStep
  dsimp only
  split_ifs with h1 h2
  · apply posDoms_setPossibles ?_ hb
    intro x hx
    exact hb r c x (foldl_hidden_subset (cellsByCol b c) _ _ x hx)
  · exact hb
  · exact hb

theorem posDoms_foldl {α : Type} (g : Board → α → Board)
    (hstep : ∀ b x, posDoms b → posDoms (g b x)) :
    ∀ (l : List α) (b : Board), posDoms b → posDoms (l.foldl g b) := by
  intro l
  induction l with
  | nil => intro b hb; exact hb
  | cons x xs ih => intro b hb; exact ih (g b x) (hstep b x hb)

theorem posDoms_updateOne (b : Board) (r c : Nat) (hb : posDoms b) :
    posDoms (updateOne b r c) := by
  unfold updateOne
  dsimp only
  apply posDoms_hiddenColStep
  apply posDoms_hiddenRowStep
  apply posDoms_foldl (constrStep r c)
  · intro b' q hb'
    exact posDoms_greaterBlock r c _ q (posDoms_lesserBlock r c b' q hb')
  · exact posDoms_rowColElim b r c hb

theorem posDoms_update_possibilities (b : Board) (hb : posDoms b) :
    posDoms (update_possibilities b) := by
  unfold update_possibilities
  apply posDoms_foldl
  · intro b' p hb'
    exact posDoms_updateOne b' p.1 p.2 hb'
  · exact hb

theorem wf_spec {b : Board} (h : wf b = true) :
    b.cells.length = b.rows ∧
    (∀ r : Nat, r < b.rows → ((b.cells[r]?).getD []).length = b.rows) ∧
    (∀ r c : Nat, r < b.rows → c < b.rows →
      (cellAt b r c).row = r ∧ (cellAt b r c).col = c) := by
  unfold wf at h
  rw [Bool.and_eq_true] at h
  obtain ⟨h1, h2⟩ := h
  rw [List.all_eq_true] at h2
  refine ⟨by simpa using h1, ?_, ?_⟩
  · intro r hr
    have h3 := h2 r (List.mem_range.mpr hr)
    rw [Bool.and_eq_true] at h3
    simpa using h3.1
  · intro r c hr hc
    have h3 := h2 r (List.mem_range.mpr hr)
    rw [Bool.and_eq_true] at h3
    have h4 := h3.2
    rw [List.all_eq_true] at h4
    have h5 := h4 c (List.mem_range.mpr hc)
    rw [Bool.and_eq_true] at h5
    exact ⟨by simpa using h5.1, by simpa using h5.2⟩

theorem SameVals.toShape {b b' : Board} (h : SameVals b b') : SameShape b b' :=
  ⟨h.rws, h.len, h.rowlen, h.rowf, h.colf⟩

theorem sameShape_setCellVal (b : Board) (r c v : Nat) : SameShape b (setCellVal b r c v) :=
  ⟨rfl, setCell_cells_length b r c _, rowLen_setCell b r c _,
   fun r' c' => (cellAt_setCellVal_rowcol b r c v r' c').1,
   fun r' c' => (cellAt_setCellVal_rowcol b r c v r' c').2⟩

theorem wf_of_sameShape {b b' : Board} (h : SameShape b b') (hw : wf b = true) :
    wf b' = true := by
  unfold wf at hw ⊢
  simp only [Bool.and_eq_true, beq_iff_eq, List.all_eq_true, List.mem_range] at hw ⊢
  obtain ⟨h1, h2⟩ := hw
  refine ⟨by rw [h.len, h.rws, h1], ?_⟩
  intro r hr
  rw [h.rws] at hr
  obtain ⟨h3, h4⟩ := h2 r hr
  refine ⟨by rw [h.rowlen r, h.rws, h3], ?_⟩
  intro c hc
  rw [h.rws] at hc
  obtain ⟨h5, h6⟩ := h4 c hc
  exact ⟨by rw [h.rowf r c, h5], by rw [h.colf r c, h6]⟩

theorem unsolvedCount_of_sameVals {b b' : Board} (h : SameVals b b') :
    unsolvedCount b' = unsolvedCount b := by
  unfold unsolvedCount
  rw [h.rws]
  apply congrArg List.sum
  apply List.map_congr_left
  intro r hr
  apply congrArg List.length
  apply List.filter_congr
  intro c hc
  rw [h.vals r c]

theorem filter_length_lt {l : List Nat} {p q : Nat → Bool} {t : Nat}
    (ht : t ∈ l) (hnodup : l.Nodup) (hpt : p t = true) (hqt : q t = false)
    (hagree : ∀ x ∈ l, x ≠ t → q x = p x) :
    (l.filter q).length < (l.filter p).length := by
  induction l with
  | nil => cases ht
  | cons a l ih =>
    rw [List.nodup_cons] at hnodup
    rcases List.mem_cons.mp ht with rfl | hmem
    · have hql : l.filter q = l.filter p :=
        List.filter_congr (fun x hx => hagree x (List.mem_cons_of_mem _ hx)
          (fun hxa => hnodup.1 (hxa ▸ hx)))
      simp only [List.filter_cons, hpt, hqt]
      rw [hql]
      simp
    · have hat : a ≠ t := fun hat => hnodup.1 (hat ▸ hmem)
      have hqa := hagree a (List.mem_cons_self a l) hat
      have hrec := ih hmem hnodup.2 (fun x hx hxt => hagree x (List.mem_cons_of_mem _ hx) hxt)
      simp only [List.filter_cons, hqa]
      cases hp : p a
      · simpa [hp] using hrec
      · simpa [hp] using hrec

theorem filter_length_le_of_imp {l : List Nat} {p q : Nat → Bool}
    (h : ∀ x ∈ l, q x = true → p x = true) :
    (l.filter q).length ≤ (l.filter p).length := by
  induction l with
  | nil => exact Nat.le_refl _
  | cons a l ih =>
    have ih2 := ih (fun x hx => h x (List.mem_cons_of_mem _ hx))
    cases hq : q a with
    | true =>
      have hp := h a (List.mem_cons_self a l) hq
      simp only [List.filter_cons, hq, hp, if_true, List.length_cons]
      omega
    | false =>
      cases hp : p a with
      | true =>
        simp only [List.filter_cons, hq, hp]
        simp only [Bool.false_eq_true, if_false, if_true, List.length_cons]
        omega
      | false =>
        simp only [List.filter_cons, hq, hp]
        simp only [Bool.false_eq_true, if_false]
        exact ih2

theorem unsolvedCount_setCellVal_lt {b : Board} {r c v : Nat}
    (hr : r < b.rows) (hc : c < b.rows)
    (hrl : r < b.cells.length) (hcl : c < ((b.cells[r]?).getD []).length)
    (h0 : (cellAt b r c).val = 0) (hv : v ≠ 0) :
    unsolvedCount (setCellVal b r c v) < unsolvedCount b := by
  unfold unsolvedCount
  have hrows : (setCellVal b r c v).rows = b.rows := rfl
  rw [hrows]
  apply List.sum_lt_sum
  · intro i hi
    by_cases hir : i = r
    · subst hir
      apply filter_length_le_of_imp
      intro x hx hq
      by_cases hxc : x = c
      · subst hxc
        rw [cellAt_setCellVal_val, if_pos ⟨rfl, rfl, hrl, hcl⟩] at hq
        simp only [beq_iff_eq] at hq
        exact absurd hq hv
      · rw [cellAt_setCellVal_val, if_neg (by tauto)] at hq
        exact hq
    · have hfil : (List.range b.rows).filter
          (fun c' => (cellAt (setCellVal b r c v) i c').val == 0) =
          (List.range b.rows).filter (fun c' => (cellAt b i c').val == 0) := by
        apply List.filter_congr
        intro c' hc'
        rw [cellAt_setCellVal_val]
        rw [if_neg (by tauto)]
      rw [hfil]
  · refine ⟨r, List.mem_range.mpr hr, ?_⟩
    apply filter_length_lt (t := c) (List.mem_range.mpr hc) (List.nodup_range b.rows)
    · simp [h0]
    · rw [cellAt_setCellVal_val, if_pos ⟨rfl, rfl, hrl, hcl⟩]
      simpa using hv
    · intro x hx hxc
      rw [cellAt_setCellVal_val]
      rw [if_neg (by tauto)]

theorem unsolvedCount_le (b : Board) : unsolvedCount b ≤ b.rows * b.rows := by
  unfold unsolvedCount
  have h1 : ∀ x ∈ (List.range b.rows).map (fun r =>
      ((List.range b.rows).filter (fun c => (cellAt b r c).val == 0)).length), x ≤ b.rows := by
    intro x hx
    rw [List.mem_map] at hx
    obtain ⟨r, hr, rfl⟩ := hx
    calc ((List.range b.rows).filter (fun c => (cellAt b r c).val == 0)).length
        ≤ (List.range b.rows).length := List.length_filter_le _ _
      _ = b.rows := List.length_range b.rows
  calc ((List.range b.rows).map _).sum
      ≤ ((List.range b.rows).map (fun r =>
          ((List.range b.rows).filter (fun c => (cellAt b r c).val == 0)).length)).length • b.rows :=
        List.sum_le_card_nsmul _ _ h1
    _ = b.rows * b.rows := by
        rw [List.length_map, List.length_range, smul_eq_mul]

theorem unsolvedCells_ne_nil_of_not_complete {b : Board} (h : isComplete b = false) :
    unsolvedCells b ≠ [] := by
  unfold isComplete at h
  unfold unsolvedCells
  intro hnil
  rw [List.filter_eq_nil_iff] at hnil
  rw [Bool.eq_false_iff] at h
  apply h
  rw [List.all_eq_true]
  intro row hrow
  rw [List.all_eq_true]
  intro cl hcl
  have := hnil cl (List.mem_flatten.mpr ⟨row, hrow, hcl⟩)
  simpa using this

theorem unsolvedCells_mem {b : Board} {cl : Cell} (h : cl ∈ unsolvedCells b) :
    cl ∈ b.cells.flatten ∧ cl.val = 0 := by
  unfold unsolvedCells at h
  rw [List.mem_filter] at h
  exact ⟨h.1, by simpa using h.2⟩

theorem flatten_mem_cellAt {b : Board} {cl : Cell} (hwf : wf b = true)
    (h : cl ∈ b.cells.flatten) :
    ∃ r c : Nat, r < b.rows ∧ c < b.rows ∧ cellAt b r c = cl := by
  rw [List.mem_flatten] at h
  obtain ⟨row, hrow, hcl⟩ := h
  obtain ⟨r, hr⟩ := List.getElem?_of_mem hrow
  obtain ⟨c, hc⟩ := List.getElem?_of_mem hcl
  have hspec := wf_spec hwf
  have hrlen : r < b.cells.length := (List.getElem?_eq_some.mp hr).1
  have hrlt : r < b.rows := by
    rw [hspec.1] at hrlen
    exact hrlen
  have hroweq : (b.cells[r]?).getD [] = row := by rw [hr]; rfl
  have hclt : c < b.rows := by
    have hclen : c < row.length := (List.getElem?_eq_some.mp hc).1
    have := hspec.2.1 r hrlt
    rw [hroweq] at this
    omega
  refine ⟨r, c, hrlt, hclt, cellAt_of_getElem? ?_⟩
  rw [hroweq]
  exact hc

theorem unsolvedCells_position {b : Board} {cl : Cell} (hwf : wf b = true)
    (h : cl ∈ unsolvedCells b) :
    cl.row < b.rows ∧ cl.col < b.rows ∧ cellAt b cl.row cl.col = cl ∧ cl.val = 0 := by
  obtain ⟨hmem, hval⟩ := unsolvedCells_mem h
  obtain ⟨r, c, hr, hc, heq⟩ := flatten_mem_cellAt hwf hmem
  obtain ⟨hfr, hfc⟩ := (wf_spec hwf).2.2 r c hr hc
  rw [heq] at hfr hfc
  refine ⟨?_, ?_, ?_, hval⟩
  · rw [hfr]; exact hr
  · rw [hfc]; exact hc
  · rw [hfr, hfc]; exact heq

theorem posDoms_setCellVal {b : Board} (r c v : Nat) (hb : posDoms b) :
    posDoms (setCellVal b r c v) := by
  intro r' c' x hx
  rw [cellAt_setCellVal_possibles] at hx
  exact hb r' c' x hx

theorem tryCandsB_isSome (f : Board → Option (Option Board)) (b : Board) (r c : Nat)
    (vs : List Nat) (h : ∀ v ∈ vs, (f (setCellVal b r c v)).isSome = true) :
    (tryCandsB f b r c vs).isSome = true := by
  induction vs with
  | nil => rfl
  | cons v vs ih =>
    rw [tryCandsB]
    split_ifs with hcons
    · cases hf : f (setCellVal b r c v) with
      | none =>
        have h2 := h v (List.mem_cons_self v vs)
        rw [hf] at h2
        cases h2
      | some o =>
        cases o with
        | none => exact ih (fun v' hv' => h v' (List.mem_cons_of_mem _ hv'))
        | some sol => rfl
    · exact ih (fun v' hv' => h v' (List.mem_cons_of_mem _ hv'))

theorem solveB_isSome_of_fuel :
    ∀ (fuel : Nat) (b : Board), wf b = true → posDoms b → unsolvedCount b < fuel →
      (solveB fuel b).isSome = true := by
  intro fuel
  induction fuel with
  | zero => intro b _ _ h; omega
  | succ fuel ih =>
    intro b hwf hpos hcount
    rw [show solveB (fuel + 1) b =
        (if isComplete b && checkConsistency b then some (some b)
         else if !(isComplete b) then
           match unsolvedCells b with
           | [] => some none
           | next :: _ =>
             tryCandsB (solveB fuel) (update_possibilities b) next.row next.col next.possibles
         else some none) from rfl]
    by_cases h1 : (isComplete b && checkConsistency b) = true
    · rw [if_pos h1]
      rfl
    · rw [if_neg h1]
      by_cases h2 : (!(isComplete b)) = true
      · rw [if_pos h2]
        have hne := unsolvedCells_ne_nil_of_not_complete (by simpa using h2)
        cases hu : unsolvedCells b with
        | nil => exact absurd hu hne
        | cons next rest =>
          obtain ⟨hrow, hcol, hcellAt, hval⟩ :=
            unsolvedCells_position hwf (hu ▸ List.mem_cons_self next rest)
          have hsv := sameVals_update_possibilities b
          have hwfu : wf (update_possibilities b) = true :=
            wf_of_sameShape hsv.toShape hwf
          have hposu : posDoms (update_possibilities b) :=
            posDoms_update_possibilities b hpos
          have hspecu := wf_spec hwfu
          apply tryCandsB_isSome
          intro v hv
          have hv0 : 1 ≤ v := by
            apply hpos next.row next.col v
            rw [hcellAt]
            exact hv
          have hrowu : next.row < (update_possibilities b).rows := by
            rw [hsv.rws]
            exact hrow
          have hcolu : next.col < (update_possibilities b).rows := by
            rw [hsv.rws]
            exact hcol
          have hvalu : (cellAt (update_possibilities b) next.row next.col).val = 0 := by
            rw [hsv.vals]
            rw [hcellAt]
            exact hval
          have hlt : unsolvedCount (setCellVal (update_possibilities b) next.row next.col v) <
              unsolvedCount (update_possibilities b) :=
            unsolvedCount_setCellVal_lt hrowu hcolu
              (by rw [hspecu.1]; exact hrowu)
              (by rw [hspecu.2.1 next.row hrowu]; exact hcolu)
              hvalu (by omega)
          apply ih
          · exact wf_of_sameShape (sameShape_setCellVal _ _ _ _) hwfu
          · exact posDoms_setCellVal _ _ _ hposu
          · rw [unsolvedCount_of_sameVals hsv] at hlt
            omega
      · rw [if_neg h2]
        rfl

theorem tryCandsB_sound (f : Board → Option (Option Board)) (b : Board) (r c : Nat)
    (Q : Board → Prop) (hf : ∀ b' sol, f b' = some (some sol) → Q sol) :
    ∀ (vs : List Nat) (sol : Board), tryCandsB f b r c vs = some (some sol) → Q sol := by
  intro vs
  induction vs with
  | nil =>
    intro sol h
    rw [tryCandsB] at h
    simp at h
  | cons v vs ih =>
    intro sol h
    rw [tryCandsB] at h
    split_ifs at h with hcons
    · cases hg : f (setCellVal b r c v) with
      | none =>
        rw [hg] at h
        simp at h
      | some o =>
        cases o with
        | none =>
          rw [hg] at h
          exact ih sol h
        | some s =>
          rw [hg] at h
          simp only [Option.some.injEq] at h
          rw [← h]
          exact hf _ s hg
    · exact ih sol h

theorem solveB_sound : ∀ (fuel : Nat) (b sol : Board),
    solveB fuel b = some (some sol) →
      isComplete sol = true ∧ checkConsistency sol = true := by
  intro fuel
  induction fuel with
  | zero =>
    intro b sol h
    cases h
  | succ fuel ih =>
    intro b sol h
    rw [show solveB (fuel + 1) b =
        (if isComplete b && checkConsistency b then some (some b)
         else if !(isComplete b) then
           match unsolvedCells b with
           | [] => some none
           | next :: _ =>
             tryCandsB (solveB fuel) (update_possibilities b) next.row next.col next.possibles
         else some none) from rfl] at h
    by_cases h1 : (isComplete b && checkConsistency b) = true
    · rw [if_pos h1] at h
      simp only [Option.some.injEq] at h
      rw [Bool.and_eq_true] at h1
      rw [← h]
      exact h1
    · rw [if_neg h1] at h
      by_cases h2 : (!(isComplete b)) = true
      · rw [if_pos h2] at h
        cases hu : unsolvedCells b with
        | nil =>
          rw [hu] at h
          simp at h
        | cons next rest =>
          rw [hu] at h
          exact tryCandsB_sound (solveB fuel) _ _ _ _ (fun b' s hb' => ih b' s hb') _ sol h
      · rw [if_neg h2] at h
        simp at h

theorem domSub_refl (b : Board) : domSub b b := fun _ _ _ h => h

theorem domSub_trans {a b c : Board} (h1 : domSub a b) (h2 : domSub b c) : domSub a c :=
  fun r cc x hx => h1 r cc x (h2 r cc x hx)

theorem domSub_setPossibles {b : Board} {r c : Nat} {l : List Nat}
    (hl : ∀ x ∈ l, x ∈ (cellAt b r c).possibles) : domSub b (setPossibles b r c l) := by
  intro r' c' x hx
  rw [cellAt_setPossibles_possibles] at hx
  split_ifs at hx with h
  · obtain ⟨h1, h2, -⟩ := h
    subst h1; subst h2
    exact hl x hx
  · exact hx

theorem domSub_rowColElim (b : Board) (r c : Nat) : domSub b (rowColElim b r c) := by
  unfold rowColElim
  dsimp only
  have h1 : domSub b (setPossibles b r c (pyDiff (cellAt b r c).possibles
      ((rowVals b r).filter (fun x => !(x == 0))))) :=
    domSub_setPossibles (fun x hx => (mem_pyDiff.mp hx).1)
  exact domSub_trans h1 (domSub_setPossibles (fun x hx => (mem_pyDiff.mp hx).1))

theorem domSub_hiddenRowStep (b : Board) (r c : Nat) : domSub b (hiddenRowStep b r c) := by
  unfold hiddenRowStep
  dsimp only
  split_ifs with h1 h2
  · exact domSub_setPossibles (fun x hx => foldl_hidden_subset (cellsByRow b r) _ _ x hx)
  · exact domSub_refl b
  · exact domSub_refl b

theorem domSub_hiddenColStep (b : Board) (r c : Nat) : domSub b (hiddenColStep b r c) := by
  unfold hiddenColStep
  dsimp only
  split_ifs with h1 h2
  · exact domSub_setPossibles (fun x hx => foldl_hidden_subset (cellsByCol b c) _ _ x hx)
  · exact domSub_refl b
  · exact domSub_refl b

theorem domSub_updateOne_noconstr (b : Board) (r c : Nat) (h : b.constraints = []) :
    domSub b (updateOne b r c) := by
  unfold updateOne
  dsimp only
  have hc1 : (rowColElim b r c).constraints = b.constraints := rfl
  rw [hc1, h]
  simp only [List.foldl_nil]
  exact domSub_trans (domSub_rowColElim b r c)
    (domSub_trans (domSub_hiddenRowStep _ r c) (domSub_hiddenColStep _ r c))

theorem domSub_update_possibilities_noconstr (b : Board) (h : b.constraints = []) :
    domSub b (update_possibilities b) := by
  unfold update_possibilities
  suffices h2 : ∀ (l : List (Nat × Nat)) (acc : Board), acc.constraints = [] → domSub b acc →
      domSub b (l.foldl (fun acc p => updateOne acc p.1 p.2) acc) by
    exact h2 _ b h (domSub_refl b)
  intro l
  induction l with
  | nil => intro acc _ hd; exact hd
  | cons p ps ih =>
    intro acc hc hd
    apply ih
    · rw [(sameVals_updateOne acc p.1 p.2).constr]
      exact hc
    · exact domSub_trans hd (domSub_updateOne_noconstr acc p.1 p.2 hc)

theorem filter_length_succ {l : List Nat} {p q : Nat → Bool} {t : Nat}
    (ht : t ∈ l) (hnodup : l.Nodup) (hpt : p t = true) (hqt : q t = false)
    (hagree : ∀ x ∈ l, x ≠ t → q x = p x) :
    (l.filter p).length = (l.filter q).length + 1 := by
  induction l with
  | nil => cases ht
  | cons a l ih =>
    rw [List.nodup_cons] at hnodup
    rcases List.mem_cons.mp ht with rfl | hmem
    · have hql : l.filter q = l.filter p :=
        List.filter_congr (fun x hx => hagree x (List.mem_cons_of_mem _ hx)
          (fun hxa => hnodup.1 (hxa ▸ hx)))
      simp only [List.filter_cons, hpt, hqt]
      rw [hql]
      simp
    · have hat : a ≠ t := fun hat => hnodup.1 (hat ▸ hmem)
      have hqa := hagree a (List.mem_cons_self a l) hat
      have hrec := ih hmem hnodup.2 (fun x hx hxt => hagree x (List.mem_cons_of_mem _ hx) hxt)
      simp only [List.filter_cons, hqa]
      cases hp : p a
      · simpa [hp] using hrec
      · simpa [hp] using hrec

theorem sum_map_succ_at {l : List Nat} {f g : Nat → Nat} {t : Nat}
    (ht : t ∈ l) (hnodup : l.Nodup) (hft : f t = g t + 1)
    (hagree : ∀ x ∈ l, x ≠ t → f x = g x) :
    (l.map f).sum = (l.map g).sum + 1 := by
  induction l with
  | nil => cases ht
  | cons a l ih =>
    rw [List.nodup_cons] at hnodup
    rcases List.mem_cons.mp ht with rfl | hmem
    · have hgl : l.map f = l.map g :=
        List.map_congr_left (fun x hx => hagree x (List.mem_cons_of_mem _ hx)
          (fun hxa => hnodup.1 (hxa ▸ hx)))
      simp only [List.map_cons, List.sum_cons, hft, hgl]
      omega
    · have hat : a ≠ t := fun hat => hnodup.1 (hat ▸ hmem)
      have hfa := hagree a (List.mem_cons_self a l) hat
      have hrec := ih hmem hnodup.2 (fun x hx hxt => hagree x (List.mem_cons_of_mem _ hx) hxt)
      simp only [List.map_cons, List.sum_cons, hfa, hrec]
      omega

theorem unsolvedCount_setCellVal_succ {b : Board} {r c v : Nat}
    (hr : r < b.rows) (hc : c < b.rows)
    (hrl : r < b.cells.length) (hcl : c < ((b.cells[r]?).getD []).length)
    (h0 : (cellAt b r c).val = 0) (hv : v ≠ 0) :
    unsolvedCount b = unsolvedCount (setCellVal b r c v) + 1 := by
  unfold unsolvedCount
  have hrows : (setCellVal b r c v).rows = b.rows := rfl
  rw [hrows]
  apply sum_map_succ_at (t := r) (List.mem_range.mpr hr) (List.nodup_range b.rows)
  · apply filter_length_succ (t := c) (List.mem_range.mpr hc) (List.nodup_range b.rows)
    · simp [h0]
    · rw [cellAt_setCellVal_val, if_pos ⟨rfl, rfl, hrl, hcl⟩]
      simpa using hv
    · intro x hx hxc
      rw [cellAt_setCellVal_val]
      rw [if_neg (by tauto)]
  · intro x hx hxr
    apply congrArg List.length
    apply List.filter_congr
    intro c' hc'
    rw [cellAt_setCellVal_val]
    rw [if_neg (by tauto)]

theorem valsLe_of_sameVals {M : Nat} {b b' : Board} (h : SameVals b b') (hv : valsLe M b) :
    valsLe M b' := by
  intro r c
  rw [h.vals]
  exact hv r c

theorem ubDoms_setPossibles {M : Nat} {b : Board} {r c : Nat} {l : List Nat}
    (hl : ∀ x ∈ l, x ≤ M) (hb : ubDoms M b) : ubDoms M (setPossibles b r c l) := by
  intro r' c' x hx
  rw [cellAt_setPossibles_possibles] at hx
  split_ifs at hx with h
  · exact hl x hx
  · exact hb r' c' x hx

theorem ubDoms_rowColElim {M : Nat} (b : Board) (r c : Nat) (hb : ubDoms M b) :
    ubDoms M (rowColElim b r c) := by
  unfold rowColElim
  dsimp only
  have h1 : ubDoms M (setPossibles b r c (pyDiff (cellAt b r c).possibles
      ((rowVals b r).filter (fun x => !(x == 0))))) :=
    ubDoms_setPossibles (fun x hx => hb r c x (mem_pyDiff.mp hx).1) hb
  exact ubDoms_setPossibles (fun x hx => h1 r c x (mem_pyDiff.mp hx).1) h1

theorem ubDoms_lesserBlock {M : Nat} (r c : Nat) (b : Board) (q : Nat × Nat × Nat × Nat)
    (hv : valsLe M b) (hb : ubDoms M b) : ubDoms M (lesserBlock r c b q) := by
  unfold lesserBlock
  dsimp only
  split
  · apply ubDoms_setPossibles ?_ hb
    split_ifs with h1 h2
    · intro x hx
      rw [List.mem_range'] at hx
      obtain ⟨i, hi, rfl⟩ := hx
      have := hv q.2.2.1 q.2.2.2
      omega
    · intro x hx
      exact hb r c x (List.mem_of_mem_erase hx)
    · intro x hx
      exact hb r c x hx
  · exact hb

theorem ubDoms_greaterBlock {M : Nat} (r c : Nat) (b : Board) (q : Nat × Nat × Nat × Nat)
    (hrM : b.rows ≤ M) (hv : valsLe M b) (hb : ubDoms M b) : ubDoms M (greaterBlock r c b q) := by
  unfold greaterBlock
  dsimp only
  split
  · apply ubDoms_setPossibles ?_ hb
    split_ifs with h1 h2
    · intro x hx
      rw [List.mem_range'] at hx
      obtain ⟨i, hi, rfl⟩ := hx
      have := hv q.1 q.2.1
      omega
    · intro x hx
      exact hb r c x (List.mem_of_mem_erase hx)
    · intro x hx
      exact hb r c x hx
  · exact hb

theorem ubDoms_hiddenRowStep {M : Nat} (b : Board) (r c : Nat) (hb : ubDoms M b) :
    ubDoms M (hiddenRowStep b r c) := by
  unfold hiddenRowStep
  dsimp only
  split_ifs with h1 h2
  · exact ubDoms_setPossibles
      (fun x hx => hb r c x (foldl_hidden_subset (cellsByRow b r) _ _ x hx)) hb
  · exact hb
  · exact hb

theorem ubDoms_hiddenColStep {M : Nat} (b : Board) (r c : Nat) (hb : ubDoms M b) :
    ubDoms M (hiddenColStep b r c) := by
  unfold hiddenColStep
  dsimp only
  split_ifs with h1 h2
  · exact ubDoms_setPossibles
      (fun x hx => hb r c x (foldl_hidden_subset (cellsByCol b c) _ _ x hx)) hb
  · exact hb
  · exact hb

theorem ubDoms_updateOne {M : Nat} (b : Board) (r c : Nat)
    (hrM : b.rows ≤ M) (hv : valsLe M b) (hb : ubDoms M b) : ubDoms M (updateOne b r c) := by
  unfold updateOne
  dsimp only
  have h1 : ubDoms M (rowColElim b r c) := ubDoms_rowColElim b r c hb
  have hv1 : valsLe M (rowColElim b r c) := valsLe_of_sameVals (sameVals_rowColElim b r c) hv
  have hr1 : (rowColElim b r c).rows ≤ M := by
    rw [(sameVals_rowColElim b r c).rws]
    exact hrM
  have h2 : ∀ (l : List (Nat × Nat × Nat × Nat)) (acc : Board),
      acc.rows ≤ M → valsLe M acc → ubDoms M acc →
      ubDoms M (l.foldl (constrStep r c) acc) ∧ valsLe M (l.foldl (constrStep r c) acc) ∧
        (l.foldl (constrStep r c) acc).rows ≤ M := by
    intro l
    induction l with
    | nil => intro acc ha hb2 hc2; exact ⟨hc2, hb2, ha⟩
    | cons q qs ih =>
      intro acc ha hb2 hc2
      apply ih
      · rw [(sameVals_constrStep r c acc q).rws]
        exact ha
      · exact valsLe_of_sameVals (sameVals_constrStep r c acc q) hb2
      · unfold constrStep
        have hl := ubDoms_lesserBlock r c acc q hb2 hc2
        apply ubDoms_greaterBlock
        · rw [(sameVals_lesserBlock r c acc q).rws]
          exact ha
        · exact valsLe_of_sameVals (sameVals_lesserBlock r c acc q) hb2
        · exact hl
  obtain ⟨h3, -, -⟩ := h2 (rowColElim b r c).constraints (rowColElim b r c) hr1 hv1 h1
  exact ubDoms_hiddenColStep _ r c (ubDoms_hiddenRowStep _ r c h3)

theorem ubDoms_update_possibilities {M : Nat} (b : Board)
    (hrM : b.rows ≤ M) (hv : valsLe M b) (hb : ubDoms M b) :
    ubDoms M (update_possibilities b) := by
  unfold update_possibilities
  suffices h2 : ∀ (l : List (Nat × Nat)) (acc : Board),
      acc.rows ≤ M → valsLe M acc → ubDoms M acc →
      ubDoms M (l.foldl (fun acc p => updateOne acc p.1 p.2) acc) by
    exact h2 _ b hrM hv hb
  intro l
  induction l with
  | nil => intro acc _ _ hc2; exact hc2
  | cons p ps ih =>
    intro acc ha hb2 hc2
    apply ih
    · rw [(sameVals_updateOne acc p.1 p.2).rws]
      exact ha
    · exact valsLe_of_sameVals (sameVals_updateOne acc p.1 p.2) hb2
    · exact ubDoms_updateOne acc p.1 p.2 ha hb2 hc2

theorem setLenEq_iff_nodup (l : List Nat) : setLenEq l = true ↔ l.Nodup := by
  unfold setLenEq
  rw [beq_iff_eq]
  constructor
  · intro h
    have h2 : l.dedup = l := (List.dedup_sublist l).eq_of_length h
    rw [← h2]
    exact List.nodup_dedup l
  · intro h
    rw [List.dedup_eq_self.mpr h]

theorem nodup_filter_nz_iff (l : List Nat) :
    (l.filter (fun x => !(x == 0))).Nodup ↔
      List.Pairwise (fun a b => a = 0 ∨ b = 0 ∨ a ≠ b) l := by
  have heq : (fun x : Nat => !(x == 0)) = (fun x : Nat => decide (x ≠ 0)) := by
    funext x
    rw [show ((x == 0) = decide (x = 0)) from rfl]
    simp [decide_not]
  rw [heq]
  constructor
  · intro h
    have h2 : List.Pairwise (fun x y : Nat => x ≠ 0 → y ≠ 0 → x ≠ y) l :=
      List.pairwise_filter.mp h
    exact h2.imp (by tauto)
  · intro h
    apply List.pairwise_filter.mpr
    exact h.imp (by tauto)

theorem checkConsistency_iff (b : Board) : checkConsistency b = true ↔ specConsistent b := by
  unfold checkConsistency specConsistent
  rw [Bool.and_eq_true, List.all_eq_true, List.all_eq_true]
  constructor
  · intro h
    obtain ⟨ha, hb2⟩ := h
    constructor
    · intro i hi
      have h2 := ha i (List.mem_range.mpr hi)
      rw [Bool.and_eq_true] at h2
      exact ⟨(nodup_filter_nz_iff _).mp ((setLenEq_iff_nodup _).mp h2.1),
             (nodup_filter_nz_iff _).mp ((setLenEq_iff_nodup _).mp h2.2)⟩
    · intro q hq h1 h2
      have h3 := hb2 q hq
      have h4 : ((cellAt b q.1 q.2.1).val = 0 ∨ (cellAt b q.2.2.1 q.2.2.2).val = 0) ∨
          (cellAt b q.1 q.2.1).val < (cellAt b q.2.2.1 q.2.2.2).val := by
        simpa using h3
      omega
  · intro h
    obtain ⟨ha, hb2⟩ := h
    constructor
    · intro i hi
      rw [Bool.and_eq_true]
      have h2 := ha i (List.mem_range.mp hi)
      exact ⟨(setLenEq_iff_nodup _).mpr ((nodup_filter_nz_iff _).mpr h2.1),
             (setLenEq_iff_nodup _).mpr ((nodup_filter_nz_iff _).mpr h2.2)⟩
    · intro q hq
      have h2 := hb2 q hq
      have h4 : ((cellAt b q.1 q.2.1).val = 0 ∨ (cellAt b q.2.2.1 q.2.2.2).val = 0) ∨
          (cellAt b q.1 q.2.1).val < (cellAt b q.2.2.1 q.2.2.2).val := by
        by_cases h3 : 0 < (cellAt b q.1 q.2.1).val
        · by_cases h5 : 0 < (cellAt b q.2.2.1 q.2.2.2).val
          · right
            exact h2 h3 h5
          · left
            right
            omega
        · left
          left
          omega
      simpa using h4

theorem foldl_pyDiff_eq_filter (skip : Cell → Bool) :
    ∀ (L : List Cell) (a : List Nat), a.Nodup →
      L.foldl (fun acc rc => if skip rc then acc else pyDiff acc rc.possibles) a =
        a.filter (fun x => L.all (fun rc => skip rc || !(rc.possibles.contains x))) := by
  intro L
  induction L with
  | nil =>
    intro a ha
    simp
  | cons rc L ih =>
    intro a ha
    simp only [List.foldl_cons, List.all_cons]
    by_cases hs : skip rc = true
    · rw [if_pos hs]
      rw [ih a ha]
      apply List.filter_congr
      intro x hx
      rw [hs]
      simp
    · have hs2 : skip rc = false := by
        revert hs
        cases skip rc <;> simp
      rw [if_neg hs]
      have hd : pyDiff a rc.possibles = a.filter (fun x => !(rc.possibles.contains x)) := by
        unfold pyDiff
        rw [List.dedup_eq_self.mpr ha]
      rw [hd, ih _ (ha.filter _), List.filter_filter]
      apply List.filter_congr
      intro x hx
      rw [hs2]
      simp [Bool.and_comm]

theorem tryCandsB_all_false (f : Board → Option (Option Board)) (b : Board) (r c : Nat) :
    ∀ vs : List Nat, (∀ v ∈ vs, checkConsistency (setCellVal b r c v) = false) →
      tryCandsB f b r c vs = some none := by
  intro vs
  induction vs with
  | nil => intro h; rfl
  | cons v vs ih =>
    intro h
    rw [tryCandsB]
    rw [if_neg (by rw [h v (List.mem_cons_self v vs)]; simp)]
    exact ih (fun v' hv' => h v' (List.mem_cons_of_mem _ hv'))

theorem ubDoms_setCellVal {M : Nat} {b : Board} (r c v : Nat) (hb : ubDoms M b) :
    ubDoms M (setCellVal b r c v) := by
  intro r' c' x hx
  rw [cellAt_setCellVal_possibles] at hx
  exact hb r' c' x hx

theorem valsLe_of_grid {M : Nat} {b : Board}
    (h : (b.cells.all fun row => row.all (fun cl => decide (cl.val ≤ M))) = true) :
    valsLe M b := by
  intro r c
  cases hcl : ((b.cells[r]?).getD [])[c]? with
  | none =>
    unfold cellAt
    rw [hcl]
    exact Nat.zero_le M
  | some cl =>
    rw [cellAt_of_getElem? hcl]
    have h2 := (all_grid_iff _ _).mp h r c cl hcl
    simpa using h2

theorem ubDoms_of_grid {M : Nat} {b : Board}
    (h : (b.cells.all fun row => row.all
        (fun cl => cl.possibles.all (fun x => decide (x ≤ M)))) = true) :
    ubDoms M b := by
  intro r c x hx
  cases hcl : ((b.cells[r]?).getD [])[c]? with
  | none =>
    unfold cellAt at hx
    rw [hcl] at hx
    simp [defaultCell] at hx
  | some cl =>
    rw [cellAt_of_getElem? hcl] at hx
    have h2 := (all_grid_iff _ _).mp h r c cl hcl
    rw [List.all_eq_true] at h2
    simpa using h2 x hx

theorem initBoard_cellAt (n : Nat) (clues : List (List Nat))
    (cs : List (Nat × Nat × Nat × Nat)) (r c : Nat) :
    cellAt (initBoard n clues cs) r c =
      if r < n ∧ c < n then ⟨r, c, (clues.getD r []).getD c 0, [1, 2, 3, 4, 5]⟩
      else defaultCell r c := by
  unfold initBoard cellAt
  by_cases hr : r < n
  · rw [List.getElem?_map, List.getElem?_range hr]
    by_cases hc : c < n
    · rw [if_pos ⟨hr, hc⟩]
      rw [show (Option.map (fun r =>
          List.map (fun c => (⟨r, c, (clues.getD r []).getD c 0, [1, 2, 3, 4, 5]⟩ : Cell))
            (List.range n)) (some r)).getD [] =
          List.map (fun c => (⟨r, c, (clues.getD r []).getD c 0, [1, 2, 3, 4, 5]⟩ : Cell))
            (List.range n) from rfl]
      rw [List.getElem?_map, List.getElem?_range hc]
      rfl
    · rw [if_neg (by tauto)]
      rw [show (Option.map (fun r =>
          List.map (fun c => (⟨r, c, (clues.getD r []).getD c 0, [1, 2, 3, 4, 5]⟩ : Cell))
            (List.range n)) (some r)).getD [] =
          List.map (fun c => (⟨r, c, (clues.getD r []).getD c 0, [1, 2, 3, 4, 5]⟩ : Cell))
            (List.range n) from rfl]
      rw [List.getElem?_map,
        List.getElem?_eq_none (l := List.range n) (n := c) (by rw [List.length_range]; omega)]
      rfl
  · rw [List.getElem?_map,
      List.getElem?_eq_none (l := List.range n) (n := r) (by rw [List.length_range]; omega)]
    rw [if_neg (by tauto)]
    rfl

theorem initBoard_rows (n : Nat) (clues : List (List Nat))
    (cs : List (Nat × Nat × Nat × Nat)) : (initBoard n clues cs).rows = n := rfl

theorem posDoms_initBoard (n : Nat) (clues : List (List Nat))
    (cs : List (Nat × Nat × Nat × Nat)) : posDoms (initBoard n clues cs) := by
  intro r c x hx
  rw [initBoard_cellAt] at hx
  split_ifs at hx with h
  · have h2 : x = 1 ∨ x = 2 ∨ x = 3 ∨ x = 4 ∨ x = 5 := by simpa using hx
    omega
  · simp [defaultCell] at hx

theorem ubDoms_initBoard (n M : Nat) (h5 : 5 ≤ M) (clues : List (List Nat))
    (cs : List (Nat × Nat × Nat × Nat)) : ubDoms M (initBoard n clues cs) := by
  intro r c x hx
  rw [initBoard_cellAt] at hx
  split_ifs at hx with h
  · have h2 : x = 1 ∨ x = 2 ∨ x = 3 ∨ x = 4 ∨ x = 5 := by simpa using hx
    omega
  · simp [defaultCell] at hx

theorem valsLe_initBoard (n M : Nat) (clues : List (List Nat))
    (hclue : ∀ row ∈ clues, ∀ v ∈ row, v ≤ M)
    (cs : List (Nat × Nat × Nat × Nat)) : valsLe M (initBoard n clues cs) := by
  intro r c
  rw [initBoard_cellAt]
  split_ifs with h
  · simp only
    rw [List.getD_eq_getElem?_getD clues r []]
    cases hrow : clues[r]? with
    | none => simp
    | some row =>
      simp only [Option.getD_some]
      rw [List.getD_eq_getElem?_getD row c 0]
      cases hv : row[c]? with
      | none => simp
      | some v =>
        simp only [Option.getD_some]
        exact hclue row (List.getElem?_mem hrow) v (List.getElem?_mem hv)
  · exact Nat.zero_le M

theorem solveB_dupRowBoard (k : Nat) : solveB (k + 1) dupRowBoard = some none := by
  rw [show solveB (k + 1) dupRowBoard =
      (if isComplete dupRowBoard && checkConsistency dupRowBoard then some (some dupRowBoard)
       else if !(isComplete dupRowBoard) then
         match unsolvedCells dupRowBoard with
         | [] => some none
         | next :: _ =>
           tryCandsB (solveB k) (update_possibilities dupRowBoard) next.row next.col
             next.possibles
       else some none) from rfl]
  rw [if_neg (by decide), if_pos (by decide)]
  cases hu : unsolvedCells dupRowBoard with
  | nil =>
    have h2 : unsolvedCells dupRowBoard ≠ [] := by decide
    exact absurd hu h2
  | cons next rest =>
    have h2 : (unsolvedCells dupRowBoard).head? = some ⟨0, 1, 0, [1, 2, 3, 4, 5]⟩ := by decide
    rw [hu] at h2
    simp only [List.head?_cons, Option.some.injEq] at h2
    subst h2
    exact tryCandsB_all_false (solveB k) (update_possibilities dupRowBoard) 0 1 [1, 2, 3, 4, 5]
      (by decide)

/-- C1: soundness of success — whenever the solver returns success, the
board it reached at the success base case (the board delivered as the
solution) satisfies both `isComplete` and `checkConsistency`. -/
theorem c1_solve_success_sound (fuel : Nat) (b sol : Board)
    (h : solveB fuel b = some (some sol)) :
    isComplete sol = true ∧ checkConsistency sol = true :=
  solveB_sound fuel b sol h

theorem c1_solve_success_sound_witness :
    isComplete (setCellVal (update_possibilities oneCellBoard) 0 0 1) = true ∧
    checkConsistency (setCellVal (update_possibilities oneCellBoard) 0 0 1) = true :=
  c1_solve_success_sound 2 oneCellBoard (setCellVal (update_possibilities oneCellBoard) 0 0 1)
    (by decide)

/-- C2: termination — on every well-formed board whose domains never
contain 0 (true of every board the program constructs), each recursive
call of `solve` is made on a trial board with exactly one more assigned
cell (one fewer unsolved cell), the number of unsolved cells is at most
`N²`, and `solve` returns (no fuel exhaustion) whenever the fuel exceeds
`N²`. -/
theorem c2_solve_terminates (b : Board) (hwf : wf b = true) (hz : zfree b = true) :
    unsolvedCount b ≤ b.rows * b.rows ∧
    (∀ (next : Cell) (rest : List Cell) (v : Nat), unsolvedCells b = next :: rest →
      v ∈ next.possibles →
      unsolvedCount b =
        unsolvedCount (setCellVal (update_possibilities b) next.row next.col v) + 1) ∧
    (∀ fuel : Nat, b.rows * b.rows < fuel → (solve fuel b).isSome = true) := by
  have hpos := (zfree_iff_posDoms b).mp hz
  refine ⟨unsolvedCount_le b, ?_, ?_⟩
  · intro next rest v hu hv
    obtain ⟨hrow, hcol, hcellAt, hval⟩ :=
      unsolvedCells_position hwf (hu ▸ List.mem_cons_self next rest)
    have hsv := sameVals_update_possibilities b
    have hwfu := wf_of_sameShape hsv.toShape hwf
    have hspecu := wf_spec hwfu
    have hv0 : v ≠ 0 := by
      have := hpos next.row next.col v (by rw [hcellAt]; exact hv)
      omega
    have hrowu : next.row < (update_possibilities b).rows := by
      rw [hsv.rws]
      exact hrow
    have hcolu : next.col < (update_possibilities b).rows := by
      rw [hsv.rws]
      exact hcol
    have hvalu : (cellAt (update_possibilities b) next.row next.col).val = 0 := by
      rw [hsv.vals, hcellAt]
      exact hval
    have h2 := unsolvedCount_setCellVal_succ hrowu hcolu
      (by rw [hspecu.1]; exact hrowu)
      (by rw [hspecu.2.1 next.row hrowu]; exact hcolu)
      hvalu hv0
    rw [unsolvedCount_of_sameVals hsv] at h2
    exact h2
  · intro fuel hfuel
    have h1 : unsolvedCount b < fuel := lt_of_le_of_lt (unsolvedCount_le b) hfuel
    have h2 := solveB_isSome_of_fuel fuel b hwf hpos h1
    unfold solve
    cases h3 : solveB fuel b with
    | none => rw [h3] at h2; cases h2
    | some o => simp

theorem c2_solve_terminates_witness :
    wf oneCellBoard = true ∧ zfree oneCellBoard = true ∧
    (solve 2 oneCellBoard).isSome = true :=
  ⟨by decide, by decide,
   (c2_solve_terminates oneCellBoard (by decide) (by decide)).2.2 2 (by decide)⟩

/-- C3 counterexample: a reachable run in which propagation adds a value
to a cell's domain.  On `constraintBoard` (3×3, clues 1 and 2 in row 0,
constraint `(0,0) < (1,0)`), the first propagation shrinks the domain of
`(0,0)` to `[4,5]`; after assigning 3 to `(1,0)`, the next propagation
replaces that domain by `range(1,3) = [1,2]`, so the call adds the value
1 (and 2), which was not in the domain before the call — contradicting
"propagate never adds a value to any cell's domain, on every call". -/
theorem c3_propagate_monotone_counterexample :
    1 ∈ (cellAt (update_possibilities
        (setCellVal (update_possibilities constraintBoard) 1 0 3)) 0 0).possibles ∧
    1 ∉ (cellAt (setCellVal (update_possibilities constraintBoard) 1 0 3) 0 0).possibles := by
  decide

/-- C3 (amended): on boards whose constraint list is empty, propagation is
monotone — `update_possibilities` never adds a value to any cell's
domain; with a non-empty constraint list, the inequality-tightening step
may replace a domain by a full interval `range(1,v)` / `range(v+1,N+1)`
and thereby re-add previously eliminated values. -/
theorem c3_propagate_monotone_no_constraints (b : Board) (h : b.constraints = [])
    (r c x : Nat) (hx : x ∈ (cellAt (update_possibilities b) r c).possibles) :
    x ∈ (cellAt b r c).possibles :=
  domSub_update_possibilities_noconstr b h r c x hx

theorem c3_propagate_monotone_no_constraints_witness :
    hiddenPairBoard.constraints = [] ∧
    1 ∈ (cellAt (update_possibilities hiddenPairBoard) 0 0).possibles ∧
    1 ∈ (cellAt hiddenPairBoard 0 0).possibles :=
  ⟨rfl, by decide,
   c3_propagate_monotone_no_constraints hiddenPairBoard rfl 0 0 1 (by decide)⟩

/-- C4 counterexample: the core performs no input validation and has no
`InputError`.  On the already-inconsistent 3×3 board with duplicate
clues 2 at `(0,0)` and `(0,2)`, `solve` is invoked, takes the incomplete
branch (search loop) and returns the ordinary failure value `False` — it
is not rejected before search. -/
theorem c4_no_input_error_counterexample :
    checkConsistency dupRowBoard = false ∧ isComplete dupRowBoard = false ∧
    solve 5 dupRowBoard = some false := by
  decide

/-- C4 (amended): the core never reports an `InputError`; `solve` invoked
directly on the inconsistent duplicate-clue board enters the candidate
loop, finds every trial assignment inconsistent, and returns the
ordinary failure `False` for every positive fuel bound. -/
theorem c4_inconsistent_input_search_failure (fuel : Nat) (h : 1 ≤ fuel) :
    solve fuel dupRowBoard = some false := by
  obtain ⟨k, rfl⟩ : ∃ k, fuel = k + 1 := ⟨fuel - 1, by omega⟩
  unfold solve
  rw [solveB_dupRowBoard k]
  rfl

theorem c4_inconsistent_input_search_failure_witness :
    solve 1 dupRowBoard = some false :=
  c4_inconsistent_input_search_failure 1 (by decide)

/-- C5: `checkConsistency` returns true exactly when (a) every row and
every column has pairwise distinct nonzero values and (b) every
constraint whose two endpoints are both nonzero satisfies the strict
inequality; cells holding 0 are ignored. -/
theorem c5_checkConsistency_iff_spec (b : Board) :
    checkConsistency b = true ↔ specConsistent b :=
  checkConsistency_iff b

/-- C6: `cell.clone` is broken — it calls the constructor with four
positional arguments (`row`, `col`, `val`, `possibles`) while `__init__`
accepts exactly three, so every call raises `TypeError` (modelled as
`none`) instead of returning a copy of the cell. -/
theorem c6_clone_raises_type_error (cl : Cell) : cellCloneCall cl = none := rfl

/-- C7: two-board candidate capture — in every non-complete solve step,
the candidate list iterated is the current domain of the first unsolved
cell read from the pre-clone, pre-propagation board `b`, while each
trial assignment (inside `tryCandsB`) is applied to the propagated clone
`update_possibilities b`. -/
theorem c7_candidates_from_pre_propagation (b : Board) (fuel : Nat) (next : Cell)
    (rest : List Cell) (hwf : wf b = true) (hni : isComplete b = false)
    (hu : unsolvedCells b = next :: rest) :
    solveB (fuel + 1) b =
      tryCandsB (solveB fuel) (update_possibilities b) next.row next.col
        ((cellAt b next.row next.col).possibles) := by
  obtain ⟨-, -, hcellAt, -⟩ :=
    unsolvedCells_position hwf (hu ▸ List.mem_cons_self next rest)
  rw [show solveB (fuel + 1) b =
      (if isComplete b && checkConsistency b then some (some b)
       else if !(isComplete b) then
         match unsolvedCells b with
         | [] => some none
         | next :: _ =>
           tryCandsB (solveB fuel) (update_possibilities b) next.row next.col next.possibles
       else some none) from rfl]
  rw [if_neg (by simp [hni]), if_pos (by simp [hni]), hu, hcellAt]

theorem c7_candidates_from_pre_propagation_witness :
    solveB 2 oneCellBoard =
      tryCandsB (solveB 1) (update_possibilities oneCellBoard) 0 0
        ((cellAt oneCellBoard 0 0).possibles) :=
  c7_candidates_from_pre_propagation oneCellBoard 1 ⟨0, 0, 0, [1]⟩ []
    (by decide) (by decide) (by decide)

/-- C8 counterexample: domains are NOT subsets of `[1, N]` for every
reachable board — `cell.__init__` hardcodes `[1,2,3,4,5]`, so on a
freshly constructed 3×3 board the unsolved cell `(0,1)` has 4 in its
domain although 4 > 3 = N. -/
theorem c8_domain_range_counterexample :
    dupRowBoard.rows = 3 ∧ (cellAt dupRowBoard 0 1).val = 0 ∧
    4 ∈ (cellAt dupRowBoard 0 1).possibles ∧ ¬(4 ≤ dupRowBoard.rows) := by
  decide

/-- C8 (amended): with `M = max N 5` in place of `N`, the domain bound
does hold and is preserved: construction gives every cell the domain
`[1,5] ⊆ [1,M]`; propagation keeps every domain inside `[1,M]` provided
all values are at most `M`; assignment never touches domains. -/
theorem c8_domain_bounds_invariant :
    (∀ (n : Nat) (clues : List (List Nat)) (cs : List (Nat × Nat × Nat × Nat)),
      posDoms (initBoard n clues cs) ∧ ubDoms (max n 5) (initBoard n clues cs)) ∧
    (∀ (M : Nat) (b : Board), b.rows ≤ M → valsLe M b → posDoms b → ubDoms M b →
      posDoms (update_possibilities b) ∧ ubDoms M (update_possibilities b)) ∧
    (∀ (M : Nat) (b : Board) (r c v : Nat), posDoms b → ubDoms M b →
      posDoms (setCellVal b r c v) ∧ ubDoms M (setCellVal b r c v)) := by
  refine ⟨?_, ?_, ?_⟩
  · intro n clues cs
    exact ⟨posDoms_initBoard n clues cs,
           ubDoms_initBoard n (max n 5) (by omega) clues cs⟩
  · intro M b h1 h2 h3 h4
    exact ⟨posDoms_update_possibilities b h3, ubDoms_update_possibilities b h1 h2 h4⟩
  · intro M b r c v h3 h4
    exact ⟨posDoms_setCellVal r c v h3, ubDoms_setCellVal r c v h4⟩

theorem c8_domain_bounds_invariant_witness :
    posDoms (update_possibilities hiddenPairBoard) ∧
    ubDoms 5 (update_possibilities hiddenPairBoard) :=
  c8_domain_bounds_invariant.2.1 5 hiddenPairBoard (by decide)
    (valsLe_of_grid (by decide))
    ((zfree_iff_posDoms hiddenPairBoard).mp (by decide))
    (ubDoms_of_grid (by decide))

/-- C9: row hidden-single — for a cell whose (duplicate-free) domain has
more than one candidate, if the set difference between its domain and
the union of all other cells' domains in its row (`rowOthersExcl`) holds
exactly one value, the row hidden-single step collapses the domain to
that singleton; if the difference has zero or several values, the step
leaves the board unchanged. -/
theorem c9_row_hidden_single (b : Board) (r c : Nat)
    (hnd : (cellAt b r c).possibles.Nodup)
    (hlen : 1 < (cellAt b r c).possibles.length)
    (hrl : r < b.cells.length) (hcl : c < ((b.cells[r]?).getD []).length) :
    ((rowOthersExcl b r c).length = 1 →
      (cellAt (hiddenRowStep b r c) r c).possibles = rowOthersExcl b r c) ∧
    ((rowOthersExcl b r c).length ≠ 1 → hiddenRowStep b r c = b) := by
  unfold hiddenRowStep
  dsimp only
  rw [if_pos hlen]
  have hfold : (cellsByRow b r).foldl
      (fun acc rc => if rc.row == r && rc.col == c then acc else pyDiff acc rc.possibles)
      (cellAt b r c).possibles = rowOthersExcl b r c := by
    rw [foldl_pyDiff_eq_filter _ (cellsByRow b r) _ hnd]
    rfl
  rw [hfold]
  constructor
  · intro h1
    rw [if_pos (by simpa using h1)]
    rw [cellAt_setPossibles_possibles, if_pos ⟨rfl, rfl, hrl, hcl⟩]
  · intro h1
    rw [if_neg (by simpa using h1)]

theorem c9_row_hidden_single_witness :
    (cellAt (hiddenRowStep hiddenPairBoard 0 0) 0 0).possibles =
      rowOthersExcl hiddenPairBoard 0 0 :=
  (c9_row_hidden_single hiddenPairBoard 0 0 (by decide) (by decide) (by decide) (by decide)).1
    (by decide)

/-- C10: the two constraint readings used by Solver.py are incompatible —
for every value (integer or arbitrarily nested sequence), at most one of
the pair-of-pairs reading of `update_possibilities` and the flat 4-tuple
reading of `checkConsistency` can succeed; the other raises (`none`). -/
theorem c10_constraint_readings_incompatible (cv : PyV) :
    readNested cv = none ∨ readFlat cv = none := by
  match cv with
  | PyV.int _ => exact Or.inl rfl
  | PyV.seq [] => exact Or.inl rfl
  | PyV.seq (PyV.int _ :: _) => exact Or.inl rfl
  | PyV.seq (PyV.seq _ :: _) => exact Or.inr rfl
